import Mathlib

/-!
Verification of `speechbrain/nnet/transducer/transducer_loss.py`.

The file shallowly embeds the three numba CUDA kernels
(`cu_kernel_forward`, `cu_kernel_backward`, `cu_kernel_compute_grad`)
and the `Transducer.forward` / `Transducer.backward` driver over exact
real arithmetic (`float32` values are modelled as `ℝ`, `math.log1p` /
`math.exp` as `Real.log (1 + _)` / `Real.exp`).

The kernels are concurrent, but the doorbell locks serialize every
alpha column `u` behind column `u - 1` (resp. every beta column behind
column `u + 1`), and each cell is written by exactly one worker, so the
tables the kernels leave behind are deterministic.  We embed the sweeps
as sequential folds that realize exactly the schedule the locks enforce
(forward: workers `u = 0, 1, ..., U`; backward: workers
`u = U, U - 1, ..., 0`; each worker walking its time loop), and we prove
the resulting tables satisfy the transducer recurrences.
-/

/-- The numerically stable log-sum-exp of the kernels:
`max(no_emit, emit) + math.log1p(math.exp(-abs(no_emit - emit)))`. -/
noncomputable def lse (a b : ℝ) : ℝ := max a b + Real.log (1 + Real.exp (-|a - b|))

/-- The alpha recurrence of `cu_kernel_forward` in solved form
(one batch element; `lp t u a` is `log_probs[b,t,u,a]`, `lab u` is
`labels[b,u]`, `bl` the blank index):
`alpha[0,0] = 0`; `alpha[t,0] = alpha[t-1,0] + lp[t-1,0,blank]`;
`alpha[0,u] = alpha[0,u-1] + lp[0,u-1,labels[u-1]]`; otherwise the
stable log-sum-exp of the no-emit and emit predecessors. -/
noncomputable def alphaDP (lp : ℕ → ℕ → ℕ → ℝ) (lab : ℕ → ℕ) (bl : ℕ) : ℕ → ℕ → ℝ
  | 0, 0 => 0
  | t + 1, 0 => alphaDP lp lab bl t 0 + lp t 0 bl
  | 0, u + 1 => alphaDP lp lab bl 0 u + lp 0 u (lab u)
  | t + 1, u + 1 =>
      lse (alphaDP lp lab bl t (u + 1) + lp t (u + 1) bl)
        (alphaDP lp lab bl (t + 1) u + lp (t + 1) u (lab u))
termination_by t u => (t, u)

/-- The beta recurrence of `cu_kernel_backward` in solved form, for the
grid `0 ≤ t ≤ T-1`, `0 ≤ u ≤ U`:
`beta[T-1,U] = lp[T-1,U,blank]`;
`beta[t,U] = beta[t+1,U] + lp[t,U,blank]`;
`beta[T-1,u] = beta[T-1,u+1] + lp[T-1,u,labels[u]]`; otherwise the
stable log-sum-exp of the no-emit and emit successors. -/
noncomputable def betaDP (lp : ℕ → ℕ → ℕ → ℝ) (lab : ℕ → ℕ) (bl T U : ℕ) (t u : ℕ) : ℝ :=
  if h1 : t + 1 < T then
    if h2 : u < U then
      lse (betaDP lp lab bl T U (t + 1) u + lp t u bl)
        (betaDP lp lab bl T U t (u + 1) + lp t u (lab u))
    else betaDP lp lab bl T U (t + 1) u + lp t u bl
  else
    if h2 : u < U then betaDP lp lab bl T U t (u + 1) + lp t u (lab u)
    else lp t u bl
termination_by (T - t) + (U - u)
decreasing_by
  · omega
  · omega
  · omega
  · omega

/-- Probability-domain (exponentiated) counterpart of the alpha table:
total probability mass of all monotonic paths from `(0,0)` to `(t,u)`. -/
noncomputable def Ffwd (p : ℕ → ℕ → ℕ → ℝ) (lab : ℕ → ℕ) (bl : ℕ) : ℕ → ℕ → ℝ
  | 0, 0 => 1
  | t + 1, 0 => Ffwd p lab bl t 0 * p t 0 bl
  | 0, u + 1 => Ffwd p lab bl 0 u * p 0 u (lab u)
  | t + 1, u + 1 =>
      Ffwd p lab bl t (u + 1) * p t (u + 1) bl +
        Ffwd p lab bl (t + 1) u * p (t + 1) u (lab u)
termination_by t u => (t, u)

/-- Probability-domain counterpart of the beta table: total probability
mass of all monotonic paths from `(t,u)` to `(T-1,U)` including the
terminal blank. -/
noncomputable def Gbwd (p : ℕ → ℕ → ℕ → ℝ) (lab : ℕ → ℕ) (bl T U : ℕ) (t u : ℕ) : ℝ :=
  if h1 : t + 1 < T then
    if h2 : u < U then
      p t u bl * Gbwd p lab bl T U (t + 1) u +
        p t u (lab u) * Gbwd p lab bl T U t (u + 1)
    else p t u bl * Gbwd p lab bl T U (t + 1) u
  else
    if h2 : u < U then p t u (lab u) * Gbwd p lab bl T U t (u + 1)
    else p t u bl
termination_by (T - t) + (U - u)
decreasing_by
  · omega
  · omega
  · omega
  · omega

/-- One addend of the anti-diagonal cut sum: `Ffwd (k-u) u * Gbwd (k-u) u`
when `(k-u, u)` lies in the `T × (U+1)` grid, else `0`. -/
noncomputable def SDterm (p : ℕ → ℕ → ℕ → ℝ) (lab : ℕ → ℕ) (bl T U : ℕ) (k u : ℕ) : ℝ :=
  if u ≤ k ∧ k - u < T then
    Ffwd p lab bl (k - u) u * Gbwd p lab bl T U (k - u) u
  else 0

/-- The anti-diagonal cut sum at diagonal `k`. -/
noncomputable def SD (p : ℕ → ℕ → ℕ → ℝ) (lab : ℕ → ℕ) (bl T U : ℕ) (k : ℕ) : ℝ :=
  Finset.sum (Finset.range (U + 1)) (fun u => SDterm p lab bl T U k u)

/-- Pointwise update of a two-index table (one CUDA store into
`alpha[b]` or `beta[b]`). -/
def upd2 (f : ℕ → ℕ → ℝ) (i j : ℕ) (v : ℝ) : ℕ → ℕ → ℝ :=
  fun a b => if a = i ∧ b = j then v else f a b

/-- The body of forward worker `u`'s `while` loop at time step `t`,
transcribed from `cu_kernel_forward` (the branch on `u == 0` / `t == 0`
and the two stores; the doorbell `cuda.atomic.add` calls only order
execution and carry no data). -/
noncomputable def alphaStep (lp : ℕ → ℕ → ℕ → ℝ) (lab : ℕ → ℕ) (bl : ℕ)
    (u : ℕ) (al : ℕ → ℕ → ℝ) (t : ℕ) : ℕ → ℕ → ℝ :=
  if u = 0 then
    if t = 0 then upd2 al 0 0 0
    else upd2 al t 0 (al (t - 1) 0 + lp (t - 1) 0 bl)
  else
    if t = 0 then upd2 al 0 u (al 0 (u - 1) + lp 0 (u - 1) (lab (u - 1)))
    else
      upd2 al t u
        (lse (al (t - 1) u + lp (t - 1) u bl)
          (al t (u - 1) + lp t (u - 1) (lab (u - 1))))

/-- Forward worker `u` running its whole time loop `t = 0 .. T-1`. -/
noncomputable def runAlphaWorker (lp : ℕ → ℕ → ℕ → ℝ) (lab : ℕ → ℕ)
    (bl T : ℕ) (u : ℕ) (al : ℕ → ℕ → ℝ) : ℕ → ℕ → ℝ :=
  (List.range T).foldl (alphaStep lp lab bl u) al

/-- The alpha table left behind by `cu_kernel_forward` for one batch
element: workers `u = 0 .. U` each walk their column; the doorbell
locks force column `u` to trail column `u-1`, so running the workers to
completion in increasing column order realizes every admissible
interleaving's unique final state.  `alpha` is zero-initialized by the
driver (`torch.zeros`). -/
noncomputable def cu_kernel_forward_alpha (lp : ℕ → ℕ → ℕ → ℝ)
    (lab : ℕ → ℕ) (bl T U : ℕ) : ℕ → ℕ → ℝ :=
  (List.range (U + 1)).foldl
    (fun al u => runAlphaWorker lp lab bl T u al) (fun _ _ => 0)

/-- The forward log-likelihood `log_p[b]` written by worker `u = 0`:
`alpha[T-1, U] + log_probs[T-1, U, blank]`. -/
noncomputable def cu_kernel_forward_log_p (lp : ℕ → ℕ → ℕ → ℝ)
    (lab : ℕ → ℕ) (bl T U : ℕ) : ℝ :=
  cu_kernel_forward_alpha lp lab bl T U (T - 1) U + lp (T - 1) U bl

/-- The body of backward worker `u`'s `while` loop at time step `t`,
transcribed from `cu_kernel_backward` (branch on `u == U[b]` /
`t == T[b]-1`; the doorbell `cuda.atomic.add` calls only order
execution). -/
noncomputable def betaStep (lp : ℕ → ℕ → ℕ → ℝ) (lab : ℕ → ℕ)
    (bl T U : ℕ) (u : ℕ) (be : ℕ → ℕ → ℝ) (t : ℕ) : ℕ → ℕ → ℝ :=
  if u = U then
    if t = T - 1 then upd2 be t u (lp t u bl)
    else upd2 be t u (be (t + 1) u + lp t u bl)
  else
    if t = T - 1 then upd2 be t u (be t (u + 1) + lp t u (lab u))
    else
      upd2 be t u
        (lse (be (t + 1) u + lp t u bl) (be t (u + 1) + lp t u (lab u)))

/-- Backward worker `u` running its whole time loop `t = T-1 .. 0`. -/
noncomputable def runBetaWorker (lp : ℕ → ℕ → ℕ → ℝ) (lab : ℕ → ℕ)
    (bl T U : ℕ) (u : ℕ) (be : ℕ → ℕ → ℝ) : ℕ → ℕ → ℝ :=
  (List.range T).reverse.foldl (betaStep lp lab bl T U u) be

/-- The beta table left behind by `cu_kernel_backward` for one batch
element: workers `u = U .. 0` each walk their column backwards in time;
the doorbell locks force column `u` to trail column `u+1`, so running
the workers to completion in decreasing column order realizes the
kernel's unique final state.  `beta` is zero-initialized by the
driver. -/
noncomputable def cu_kernel_backward_beta (lp : ℕ → ℕ → ℕ → ℝ)
    (lab : ℕ → ℕ) (bl T U : ℕ) : ℕ → ℕ → ℝ :=
  (List.range (U + 1)).reverse.foldl
    (fun be u => runBetaWorker lp lab bl T U u be) (fun _ _ => 0)

/-- The backward log-likelihood `log_p[b] = beta[0,0]` written by
worker `u = 0`. -/
noncomputable def cu_kernel_backward_log_p (lp : ℕ → ℕ → ℕ → ℝ)
    (lab : ℕ → ℕ) (bl T U : ℕ) : ℝ :=
  cu_kernel_backward_beta lp lab bl T U 0 0

/-- Pointwise update of a three-index lattice slice (one CUDA store
into `grads[b]`). -/
def upd3 (g : ℕ → ℕ → ℕ → ℝ) (i j a : ℕ) (v : ℝ) : ℕ → ℕ → ℕ → ℝ :=
  fun x y z => if x = i ∧ y = j ∧ z = a then v else g x y z

/-- The `for u in range(U[b]+1)` blank-gradient loop of worker `t`
in `cu_kernel_compute_grad` (the two consecutive stores into the same
cell are composed into the final value they leave behind). -/
noncomputable def gradBlankLoop (lp : ℕ → ℕ → ℕ → ℝ)
    (al be : ℕ → ℕ → ℝ) (bl U : ℕ) (t : ℕ) (g : ℕ → ℕ → ℕ → ℝ) :
    ℕ → ℕ → ℕ → ℝ :=
  (List.range (U + 1)).foldl
    (fun g u =>
      upd3 g t u bl (-Real.exp (al t u + be (t + 1) u + lp t u bl - be 0 0)))
    g

/-- The `for u, l in enumerate(labels[b])` emit-gradient loop of
worker `t` (the guard `u < U[b]` restricts it to `u = 0 .. U-1`). -/
noncomputable def gradEmitLoop (lp : ℕ → ℕ → ℕ → ℝ) (lab : ℕ → ℕ)
    (al be : ℕ → ℕ → ℝ) (U : ℕ) (t : ℕ) (g : ℕ → ℕ → ℕ → ℝ) :
    ℕ → ℕ → ℕ → ℝ :=
  (List.range U).foldl
    (fun g u =>
      upd3 g t u (lab u)
        (-Real.exp (al t u + be t (u + 1) + lp t u (lab u) - be 0 0)))
    g

/-- Worker `t` of `cu_kernel_compute_grad`: the terminal-cell store
(only for `t = 0`), then the blank loop (only for `t < T-1`), then the
emit loop. -/
noncomputable def gradWorker (lp : ℕ → ℕ → ℕ → ℝ) (lab : ℕ → ℕ)
    (al be : ℕ → ℕ → ℝ) (bl T U : ℕ) (t : ℕ) (g : ℕ → ℕ → ℕ → ℝ) :
    ℕ → ℕ → ℕ → ℝ :=
  gradEmitLoop lp lab al be U t
    (if t < T - 1 then
      gradBlankLoop lp al be bl U t
        (if t = 0 then
          upd3 g (T - 1) U bl
            (-Real.exp (al (T - 1) U + lp (T - 1) U bl - be 0 0))
        else g)
    else
      (if t = 0 then
        upd3 g (T - 1) U bl
          (-Real.exp (al (T - 1) U + lp (T - 1) U bl - be 0 0))
      else g))

/-- The gradient lattice slice left behind by `cu_kernel_compute_grad`
for one batch element: workers `t = 0 .. T-1` (zero-initialized buffer,
no inter-worker synchronization needed). -/
noncomputable def cu_kernel_compute_grad (lp : ℕ → ℕ → ℕ → ℝ)
    (lab : ℕ → ℕ) (al be : ℕ → ℕ → ℝ) (bl T U : ℕ) : ℕ → ℕ → ℕ → ℝ :=
  (List.range T).foldl (fun g t => gradWorker lp lab al be bl T U t g)
    (fun _ _ _ => 0)

/-- The per-batch loss vector computed by `Transducer.forward` before
reduction: `-(log_p_alpha + log_p_beta) / 2` (batch-level inputs are
indexed by the batch element `b`). -/
noncomputable def lossVector (lp : ℕ → ℕ → ℕ → ℕ → ℝ) (lab : ℕ → ℕ → ℕ)
    (T U : ℕ → ℕ) (bl : ℕ) : ℕ → ℝ :=
  fun b =>
    -(cu_kernel_forward_log_p (lp b) (lab b) bl (T b) (U b) +
        cu_kernel_backward_log_p (lp b) (lab b) bl (T b) (U b)) / 2

/-- The driver `Transducer.forward`: launches the forward, backward and
gradient kernels unconditionally (no validation of `blank` or of the
length vectors), then branches on the reduction string — `mean` is the
batch mean, `sum` the batch sum, `none` the unreduced vector, anything
else raises `Exception("Unexpected reduction ...")`, modelled as
`Except.error`. -/
noncomputable def Transducer.forward (lp : ℕ → ℕ → ℕ → ℕ → ℝ)
    (lab : ℕ → ℕ → ℕ) (T U : ℕ → ℕ) (B : ℕ) (bl : ℕ)
    (reduction : String) : Except String (ℝ ⊕ (ℕ → ℝ)) :=
  if reduction = "mean" then
    Except.ok (Sum.inl
      (Finset.sum (Finset.range B) (lossVector lp lab T U bl) / (B : ℝ)))
  else if reduction = "sum" then
    Except.ok (Sum.inl (Finset.sum (Finset.range B) (lossVector lp lab T U bl)))
  else if reduction = "none" then
    Except.ok (Sum.inr (lossVector lp lab T U bl))
  else
    Except.error ("Unexpected reduction " ++ reduction)

/-- Whether the modelled invocation raised. -/
def exceptIsError {α : Type} : Except String α → Bool
  | Except.error _ => true
  | Except.ok _ => false

/-- `Transducer.backward`: scales the saved gradient lattice in place
(`ctx.grads.mul_(grad_output)`, broadcasting the per-batch upstream
gradient over the three lattice axes) and returns that same buffer.
The first component is the state `ctx.grads` holds after the call, the
second is the returned tensor; in the source they are one and the same
buffer. -/
noncomputable def Transducer.backward (grads : ℕ → ℕ → ℕ → ℕ → ℝ)
    (grad_output : ℕ → ℝ) :
    (ℕ → ℕ → ℕ → ℕ → ℝ) × (ℕ → ℕ → ℕ → ℕ → ℝ) :=
  (fun b t u a => grads b t u a * grad_output b,
   fun b t u a => grads b t u a * grad_output b)

/-- Helper for `alignPaths`: given all monotonic paths starting at time
row `t`, produce all monotonic paths starting at time row `t+1`
(`false` = blank/time step, `true` = emit/label step). -/
def alignPathsAux (prev : ℕ → List (List Bool)) : ℕ → List (List Bool)
  | 0 => (prev 0).map (fun l => false :: l)
  | u + 1 =>
      (prev (u + 1)).map (fun l => false :: l) ++
        (alignPathsAux prev u).map (fun l => true :: l)

/-- All monotonic alignments through the lattice with `t` time-advance
(blank) moves and `u` emit moves, i.e. all monotonic paths from `(0,0)`
to `(t,u)` in the sense of the spec's glossary (the terminal blank at
`(T-1,U)` is implicit). -/
def alignPaths : ℕ → ℕ → List (List Bool)
  | 0 => fun u => [List.replicate u true]
  | t + 1 => alignPathsAux (alignPaths t)

/-- The log-probability of one monotonic alignment starting at cell
`(t,u)`: each `false` move adds the blank log-probability and advances
time, each `true` move adds the label log-probability and advances the
label position, and the implicit terminal blank at the final cell is
added at the end of the path. -/
noncomputable def pathScore (lp : ℕ → ℕ → ℕ → ℝ) (lab : ℕ → ℕ) (bl : ℕ) :
    ℕ → ℕ → List Bool → ℝ
  | t, u, [] => lp t u bl
  | t, u, false :: r => lp t u bl + pathScore lp lab bl (t + 1) u r
  | t, u, true :: r => lp t u (lab u) + pathScore lp lab bl t (u + 1) r

/-- The labels row of the spec's concrete scenario, `labels = [[1, 2]]`. -/
def scenarioLabels : ℕ → ℕ := fun u => u + 1

/-- The spec's declared length invariant for one batch element:
`0 < T[b] <= T_max` and `0 <= U[b] <= U_max - 1`. -/
def lengthInvariant (maxT maxU Tb Ub : ℕ) : Prop :=
  0 < Tb ∧ Tb ≤ maxT ∧ Ub + 1 ≤ maxU

/-- A bounds-checked access to the `lock` array (shape `B × U_max`) at
column index `i`: `none` is the out-of-bounds error branch. -/
def lockAccess (maxU : ℕ) (i : ℤ) : Option ℤ :=
  if 0 ≤ i ∧ i < (maxU : ℤ) then some i else none

/-- The lock column signalled by forward worker `u = 0` each iteration:
`cuda.atomic.add(lock, (b, u + 1), -1)` with `u = 0`. -/
def forwardWorkerZeroSignal : ℤ := 0 + 1

/-- The lock column signalled by the backward boundary worker
`u = U[b]` each iteration: `cuda.atomic.add(lock, (b, u - 1), -1)` with
`u = U[b]`. -/
def backwardBoundarySignal (Ub : ℕ) : ℤ := (Ub : ℤ) - 1

/-- Over exact reals the stable form equals `log (exp a + exp b)` as additive
transport: `exp (lse a b) = exp a + exp b`. -/
theorem exp_lse (a b : ℝ) : Real.exp (lse a b) = Real.exp a + Real.exp b := by
  unfold lse
  rcases le_total a b with h | h
  · rw [max_eq_right h, abs_of_nonpos (by linarith), Real.exp_add,
      Real.exp_log (by positivity)]
    have h2 : b + (a - b) = a := by ring
    rw [neg_neg, mul_add, mul_one, ← Real.exp_add, h2]
    ring
  · rw [max_eq_left h, abs_of_nonneg (by linarith), Real.exp_add,
      Real.exp_log (by positivity)]
    have h2 : a + (b - a) = b := by ring
    rw [neg_sub, mul_add, mul_one, ← Real.exp_add, h2]

/-- `exp` transports the stable log-domain alpha recurrence to the
probability-domain recurrence. -/
theorem exp_alphaDP (lp : ℕ → ℕ → ℕ → ℝ) (lab : ℕ → ℕ) (bl : ℕ) :
    ∀ t u, Real.exp (alphaDP lp lab bl t u) =
      Ffwd (fun t u a => Real.exp (lp t u a)) lab bl t u := by
  intro t u
  induction t, u using alphaDP.induct lp lab bl with
  | case1 => simp [alphaDP, Ffwd]
  | case2 t ih => simp [alphaDP, Ffwd, Real.exp_add, ih]
  | case3 u ih => simp [alphaDP, Ffwd, Real.exp_add, ih]
  | case4 t u ih1 ih2 =>
      simp [alphaDP, Ffwd, exp_lse, Real.exp_add, ih1, ih2]

/-- `exp` transports the stable log-domain beta recurrence to the
probability-domain recurrence. -/
theorem exp_betaDP (lp : ℕ → ℕ → ℕ → ℝ) (lab : ℕ → ℕ) (bl T U : ℕ) :
    ∀ t u, Real.exp (betaDP lp lab bl T U t u) =
      Gbwd (fun t u a => Real.exp (lp t u a)) lab bl T U t u := by
  intro t u
  induction t, u using betaDP.induct lp lab bl T U with
  | case1 t u h1 h2 ih1 ih2 =>
      rw [betaDP, Gbwd]
      simp only [dif_pos h1, dif_pos h2]
      simp [exp_lse, Real.exp_add, ih1, ih2, mul_comm]
  | case2 t u h1 h2 ih =>
      rw [betaDP, Gbwd]
      simp only [dif_pos h1, dif_neg h2]
      simp [Real.exp_add, ih, mul_comm]
  | case3 t u h1 h2 ih =>
      rw [betaDP, Gbwd]
      simp only [dif_neg h1, dif_pos h2]
      simp [Real.exp_add, ih, mul_comm]
  | case4 t u h1 h2 =>
      rw [betaDP, Gbwd]
      simp only [dif_neg h1, dif_neg h2]

/-- Uniform one-step expansion of `Ffwd` at any nonzero cell. -/
theorem Ffwd_split (p : ℕ → ℕ → ℕ → ℝ) (lab : ℕ → ℕ) (bl : ℕ) (t u : ℕ)
    (h : ¬(t = 0 ∧ u = 0)) :
    Ffwd p lab bl t u =
      (if 0 < t then Ffwd p lab bl (t - 1) u * p (t - 1) u bl else 0) +
        (if 0 < u then Ffwd p lab bl t (u - 1) * p t (u - 1) (lab (u - 1)) else 0) := by
  match t, u with
  | 0, 0 => exact absurd ⟨rfl, rfl⟩ h
  | t + 1, 0 => simp [Ffwd]
  | 0, u + 1 => simp [Ffwd]
  | t + 1, u + 1 => simp [Ffwd]

/-- Uniform one-step expansion of `Gbwd` at any cell of the grid other
than the terminal corner `(T-1, U)`. -/
theorem Gbwd_split (p : ℕ → ℕ → ℕ → ℝ) (lab : ℕ → ℕ) (bl T U : ℕ) (t u : ℕ)
    (ht : t < T) (hu : u ≤ U) (h : ¬(t = T - 1 ∧ u = U)) :
    Gbwd p lab bl T U t u =
      (if t + 1 < T then p t u bl * Gbwd p lab bl T U (t + 1) u else 0) +
        (if u < U then p t u (lab u) * Gbwd p lab bl T U t (u + 1) else 0) := by
  rw [Gbwd]
  by_cases h1 : t + 1 < T
  · by_cases h2 : u < U
    · simp [h1, h2]
    · simp [h1, h2]
  · by_cases h2 : u < U
    · simp [h1, h2]
    · exact absurd ⟨by omega, by omega⟩ h

/-- Terminal corner of the backward table: only the final blank. -/
theorem Gbwd_corner (p : ℕ → ℕ → ℕ → ℝ) (lab : ℕ → ℕ) (bl T U : ℕ) (hT : 0 < T) :
    Gbwd p lab bl T U (T - 1) U = p (T - 1) U bl := by
  rw [Gbwd]
  simp [show ¬(T - 1 + 1 < T) by omega]

theorem SD_zero (p : ℕ → ℕ → ℕ → ℝ) (lab : ℕ → ℕ) (bl T U : ℕ) (hT : 0 < T) :
    SD p lab bl T U 0 = Gbwd p lab bl T U 0 0 := by
  unfold SD
  rw [Finset.sum_eq_single_of_mem 0 (Finset.mem_range.mpr (by omega))]
  · simp [SDterm, hT, Ffwd]
  · intro b _ hb
    simp [SDterm, hb]

theorem SD_last (p : ℕ → ℕ → ℕ → ℝ) (lab : ℕ → ℕ) (bl T U : ℕ) (hT : 0 < T) :
    SD p lab bl T U (T - 1 + U) = Ffwd p lab bl (T - 1) U * p (T - 1) U bl := by
  unfold SD
  rw [Finset.sum_eq_single_of_mem U (Finset.mem_range.mpr (by omega))]
  · have h1 : T - 1 + U - U = T - 1 := by omega
    rw [SDterm, if_pos ⟨by omega, by omega⟩, h1, Gbwd_corner p lab bl T U hT]
  · intro b hb hbne
    have hb' : b < U + 1 := Finset.mem_range.mp hb
    rw [SDterm, if_neg (by omega)]

/-- Expanding the backward factor of a cut addend one step along the two
outgoing edges of cell `(k-u, u)`. -/
theorem SDterm_expandG (p : ℕ → ℕ → ℕ → ℝ) (lab : ℕ → ℕ) (bl T U : ℕ)
    (k : ℕ) (hk : k < T - 1 + U) (u : ℕ) (hu : u ≤ U) :
    SDterm p lab bl T U k u =
      (if u ≤ k ∧ k - u + 1 < T then
        Ffwd p lab bl (k - u) u *
          (p (k - u) u bl * Gbwd p lab bl T U (k - u + 1) u) else 0) +
      (if u ≤ k ∧ k - u < T ∧ u < U then
        Ffwd p lab bl (k - u) u *
          (p (k - u) u (lab u) * Gbwd p lab bl T U (k - u) (u + 1)) else 0) := by
  by_cases hc : u ≤ k ∧ k - u < T
  · have hcorner : ¬(k - u = T - 1 ∧ u = U) := by omega
    rw [SDterm, if_pos hc,
      Gbwd_split p lab bl T U (k - u) u hc.2 hu hcorner, mul_add]
    congr 1
    · by_cases h1 : k - u + 1 < T
      · rw [if_pos h1, if_pos ⟨hc.1, h1⟩]
      · rw [if_neg h1, if_neg (by tauto), mul_zero]
    · by_cases h2 : u < U
      · rw [if_pos h2, if_pos ⟨hc.1, hc.2, h2⟩]
      · rw [if_neg h2, if_neg (by tauto), mul_zero]
  · rw [SDterm, if_neg hc, if_neg (by omega), if_neg (by omega), add_zero]

/-- Expanding the forward factor of a cut addend on diagonal `k+1` one
step along the two incoming edges of cell `(k+1-u, u)`. -/
theorem SDterm_expandF (p : ℕ → ℕ → ℕ → ℝ) (lab : ℕ → ℕ) (bl T U : ℕ)
    (k u : ℕ) :
    SDterm p lab bl T U (k + 1) u =
      (if u ≤ k ∧ k - u + 1 < T then
        Ffwd p lab bl (k - u) u *
          (p (k - u) u bl * Gbwd p lab bl T U (k - u + 1) u) else 0) +
      (if u ≤ k + 1 ∧ k + 1 - u < T ∧ 0 < u then
        Ffwd p lab bl (k + 1 - u) (u - 1) *
          (p (k + 1 - u) (u - 1) (lab (u - 1)) *
            Gbwd p lab bl T U (k + 1 - u) u) else 0) := by
  by_cases hc : u ≤ k + 1 ∧ k + 1 - u < T
  · have hnz : ¬(k + 1 - u = 0 ∧ u = 0) := by omega
    rw [SDterm, if_pos hc, Ffwd_split p lab bl (k + 1 - u) u hnz, add_mul]
    congr 1
    · by_cases h1 : 0 < k + 1 - u
      · have e1 : k + 1 - u - 1 = k - u := by omega
        have e2 : k + 1 - u = k - u + 1 := by omega
        rw [if_pos h1, e1, if_pos ⟨by omega, by omega⟩, e2]
        ring
      · rw [if_neg h1, if_neg (by omega), zero_mul]
    · by_cases h2 : 0 < u
      · rw [if_pos h2, if_pos ⟨hc.1, hc.2, h2⟩]
        ring
      · rw [if_neg h2, if_neg (by tauto), zero_mul]
  · rw [SDterm, if_neg hc, if_neg (by omega), if_neg (by omega), add_zero]

/-- The anti-diagonal cut sum is invariant from one diagonal to the
next: every addend of `SD k` is the weight of an edge out of diagonal
`k`, and every addend of `SD (k+1)` is the weight of an edge into
diagonal `k+1`; they enumerate the same edges. -/
theorem SD_step (p : ℕ → ℕ → ℕ → ℝ) (lab : ℕ → ℕ) (bl T U : ℕ)
    (k : ℕ) (hk : k < T - 1 + U) :
    SD p lab bl T U k = SD p lab bl T U (k + 1) := by
  unfold SD
  rw [Finset.sum_congr rfl (fun u hu =>
    SDterm_expandG p lab bl T U k hk u (by
      have := Finset.mem_range.mp hu; omega))]
  rw [Finset.sum_congr rfl (fun u _ => SDterm_expandF p lab bl T U k u)]
  rw [Finset.sum_add_distrib, Finset.sum_add_distrib]
  congr 1
  rw [Finset.sum_range_succ, if_neg (by omega), add_zero]
  rw [Finset.sum_range_succ', if_neg (by omega), add_zero]
  refine Finset.sum_congr rfl (fun v hv => ?_)
  have hv' : v < U := Finset.mem_range.mp hv
  by_cases hg : v ≤ k ∧ k - v < T
  · rw [if_pos ⟨hg.1, hg.2, hv'⟩, if_pos (by omega)]
    have e1 : k + 1 - (v + 1) = k - v := by omega
    have e2 : v + 1 - 1 = v := rfl
    rw [e1, e2]
  · rw [if_neg (by tauto), if_neg (by omega)]

/-- Total-probability identity: the backward sweep's value at the
origin equals the forward sweep's value at the terminal corner times
the terminal blank probability. -/
theorem Gbwd_eq_Ffwd (p : ℕ → ℕ → ℕ → ℝ) (lab : ℕ → ℕ) (bl T U : ℕ)
    (hT : 0 < T) :
    Gbwd p lab bl T U 0 0 = Ffwd p lab bl (T - 1) U * p (T - 1) U bl := by
  have hchain : ∀ n, n ≤ T - 1 + U → SD p lab bl T U 0 = SD p lab bl T U n := by
    intro n
    induction n with
    | zero => intro _; rfl
    | succ m ih =>
        intro h
        rw [ih (by omega), SD_step p lab bl T U m (by omega)]
  rw [← SD_zero p lab bl T U hT, hchain (T - 1 + U) le_rfl,
    SD_last p lab bl T U hT]

/-- Exact-arithmetic equality of the two per-element log-likelihoods at
the level of the solved recurrences. -/
theorem loglikDP_eq (lp : ℕ → ℕ → ℕ → ℝ) (lab : ℕ → ℕ) (bl T U : ℕ)
    (hT : 0 < T) :
    alphaDP lp lab bl (T - 1) U + lp (T - 1) U bl =
      betaDP lp lab bl T U 0 0 := by
  have h := Gbwd_eq_Ffwd (fun t u a => Real.exp (lp t u a)) lab bl T U hT
  rw [← exp_alphaDP, ← exp_betaDP, ← Real.exp_add] at h
  exact Real.exp_injective h.symm

theorem runAlphaWorker_partial (lp : ℕ → ℕ → ℕ → ℝ) (lab : ℕ → ℕ)
    (bl T : ℕ) (u : ℕ) (al : ℕ → ℕ → ℝ)
    (pre : ∀ s v, v < u → s < T → al s v = alphaDP lp lab bl s v) :
    ∀ k, k ≤ T →
      (∀ s, s < k →
        (List.range k).foldl (alphaStep lp lab bl u) al s u =
          alphaDP lp lab bl s u) ∧
      (∀ s v, v ≠ u →
        (List.range k).foldl (alphaStep lp lab bl u) al s v = al s v) := by
  intro k
  induction k with
  | zero => intro _; exact ⟨fun s hs => absurd hs (by omega), fun _ _ _ => rfl⟩
  | succ m ih =>
      intro hm
      have ihm := ih (by omega)
      rw [List.range_succ, List.foldl_append, List.foldl_cons, List.foldl_nil]
      set al1 := (List.range m).foldl (alphaStep lp lab bl u) al with hal1
      have hwrite : ∀ s v, alphaStep lp lab bl u al1 m s v =
          if s = m ∧ v = u then alphaDP lp lab bl m u else al1 s v := by
        intro s v
        rcases Nat.eq_zero_or_pos u with hu | hu
        · subst hu
          rcases Nat.eq_zero_or_pos m with hm0 | hm0
          · subst hm0
            simp only [alphaStep, eq_self_iff_true, if_true, upd2, alphaDP]
          · have hm0' : m ≠ 0 := by omega
            simp only [alphaStep, eq_self_iff_true, if_true, if_neg hm0', upd2]
            rw [(ihm.1 (m - 1) (by omega))]
            have : alphaDP lp lab bl m 0 =
                alphaDP lp lab bl (m - 1) 0 + lp (m - 1) 0 bl := by
              match m, hm0 with
              | m' + 1, _ => simp [alphaDP]
            rw [← this]
        · have hu' : u ≠ 0 := by omega
          rcases Nat.eq_zero_or_pos m with hm0 | hm0
          · subst hm0
            simp only [alphaStep, if_neg hu', eq_self_iff_true, if_true, upd2]
            rw [ihm.2 0 (u - 1) (by omega), pre 0 (u - 1) (by omega) (by omega)]
            have : alphaDP lp lab bl 0 u =
                alphaDP lp lab bl 0 (u - 1) + lp 0 (u - 1) (lab (u - 1)) := by
              match u, hu with
              | u' + 1, _ => simp [alphaDP]
            rw [← this]
          · have hm0' : m ≠ 0 := by omega
            simp only [alphaStep, if_neg hu', if_neg hm0', upd2]
            rw [ihm.1 (m - 1) (by omega), ihm.2 m (u - 1) (by omega),
              pre m (u - 1) (by omega) (by omega)]
            have : alphaDP lp lab bl m u =
                lse (alphaDP lp lab bl (m - 1) u + lp (m - 1) u bl)
                  (alphaDP lp lab bl m (u - 1) + lp m (u - 1) (lab (u - 1))) := by
              match m, u, hm0, hu with
              | m' + 1, u' + 1, _, _ => simp [alphaDP]
            rw [← this]
      constructor
      · intro s hs
        rw [hwrite]
        by_cases hsm : s = m
        · rw [if_pos ⟨hsm, rfl⟩, hsm]
        · rw [if_neg (by tauto)]
          exact ihm.1 s (by omega)
      · intro s v hv
        rw [hwrite, if_neg (by tauto)]
        exact ihm.2 s v hv

/-- After all forward workers have run, every in-range cell of the
alpha buffer holds the solved recurrence value. -/
theorem cu_kernel_forward_alpha_eq (lp : ℕ → ℕ → ℕ → ℝ) (lab : ℕ → ℕ)
    (bl T U : ℕ) :
    ∀ t u, t < T → u ≤ U →
      cu_kernel_forward_alpha lp lab bl T U t u = alphaDP lp lab bl t u := by
  have main : ∀ n, n ≤ U + 1 →
      ∀ s v, s < T → v < n →
        (List.range n).foldl
          (fun al u => runAlphaWorker lp lab bl T u al)
          (fun _ _ => 0) s v = alphaDP lp lab bl s v := by
    intro n
    induction n with
    | zero => intro _ s v _ hv; omega
    | succ m ih =>
        intro hm s v hs hv
        rw [List.range_succ, List.foldl_append, List.foldl_cons, List.foldl_nil]
        have pre : ∀ s' v', v' < m → s' < T →
            (List.range m).foldl
              (fun al u => runAlphaWorker lp lab bl T u al)
              (fun _ _ => 0) s' v' = alphaDP lp lab bl s' v' :=
          fun s' v' hv' hs' => ih (by omega) s' v' hs' hv'
        have h := runAlphaWorker_partial lp lab bl T m _ pre T le_rfl
        by_cases hvm : v = m
        · subst hvm
          exact h.1 s hs
        · rw [runAlphaWorker, h.2 s v hvm]
          exact pre s v (by omega) hs
  intro t u ht hu
  exact main (U + 1) le_rfl t u ht (by omega)

theorem range_succ_reverse (n : ℕ) :
    (List.range (n + 1)).reverse = n :: (List.range n).reverse := by
  rw [List.range_succ, List.reverse_append]
  rfl

theorem runBetaWorker_partial (lp : ℕ → ℕ → ℕ → ℝ) (lab : ℕ → ℕ)
    (bl T U : ℕ) (u : ℕ) (hu : u ≤ U) :
    ∀ k, k ≤ T → ∀ be : ℕ → ℕ → ℝ,
      (∀ s v, u < v → v ≤ U → s < T → be s v = betaDP lp lab bl T U s v) →
      (∀ s, k ≤ s → s < T → be s u = betaDP lp lab bl T U s u) →
      (∀ s, s < T →
        (List.range k).reverse.foldl (betaStep lp lab bl T U u) be s u =
          betaDP lp lab bl T U s u) ∧
      (∀ s v, v ≠ u →
        (List.range k).reverse.foldl (betaStep lp lab bl T U u) be s v =
          be s v) := by
  intro k
  induction k with
  | zero =>
      intro _ be _ prehigh
      exact ⟨fun s hs => prehigh s (by omega) hs, fun _ _ _ => rfl⟩
  | succ m ih =>
      intro hm be precols prehigh
      rw [range_succ_reverse, List.foldl_cons]
      have hmT : m < T := by omega
      have hwrite : ∀ s v, betaStep lp lab bl T U u be m s v =
          if s = m ∧ v = u then betaDP lp lab bl T U m u else be s v := by
        intro s v
        by_cases huU : u = U
        · by_cases hmt : m = T - 1
          · have hval : betaDP lp lab bl T U m u = lp m u bl := by
              rw [betaDP]
              simp [show ¬(m + 1 < T) by omega, show ¬(u < U) by omega]
            simp only [betaStep, if_pos huU, if_pos hmt, upd2, hval]
          · have hval : betaDP lp lab bl T U m u =
                betaDP lp lab bl T U (m + 1) u + lp m u bl := by
              rw [betaDP]
              simp [show m + 1 < T by omega, show ¬(u < U) by omega]
            simp only [betaStep, if_pos huU, if_neg hmt, upd2]
            rw [prehigh (m + 1) (by omega) (by omega), ← hval]
        · have huU' : u < U := by omega
          by_cases hmt : m = T - 1
          · have hval : betaDP lp lab bl T U m u =
                betaDP lp lab bl T U m (u + 1) + lp m u (lab u) := by
              rw [betaDP]
              simp [show ¬(m + 1 < T) by omega, huU']
            simp only [betaStep, if_neg huU, if_pos hmt, upd2]
            rw [precols m (u + 1) (by omega) (by omega) (by omega), ← hval]
          · have hval : betaDP lp lab bl T U m u =
                lse (betaDP lp lab bl T U (m + 1) u + lp m u bl)
                  (betaDP lp lab bl T U m (u + 1) + lp m u (lab u)) := by
              rw [betaDP]
              simp [show m + 1 < T by omega, huU']
            simp only [betaStep, if_neg huU, if_neg hmt, upd2]
            rw [prehigh (m + 1) (by omega) (by omega),
              precols m (u + 1) (by omega) (by omega) (by omega), ← hval]
      have precols2 : ∀ s v, u < v → v ≤ U → s < T →
          betaStep lp lab bl T U u be m s v = betaDP lp lab bl T U s v := by
        intro s v h1 h2 h3
        rw [hwrite, if_neg (by omega)]
        exact precols s v h1 h2 h3
      have prehigh2 : ∀ s, m ≤ s → s < T →
          betaStep lp lab bl T U u be m s u = betaDP lp lab bl T U s u := by
        intro s h1 h2
        rw [hwrite]
        by_cases hsm : s = m
        · rw [if_pos ⟨hsm, rfl⟩, hsm]
        · rw [if_neg (by tauto)]
          exact prehigh s (by omega) h2
      have h := ih (by omega) (betaStep lp lab bl T U u be m) precols2 prehigh2
      refine ⟨h.1, fun s v hv => ?_⟩
      rw [h.2 s v hv, hwrite, if_neg (by tauto)]

/-- After all backward workers have run, every in-range cell of the
beta buffer holds the solved recurrence value. -/
theorem cu_kernel_backward_beta_eq (lp : ℕ → ℕ → ℕ → ℝ) (lab : ℕ → ℕ)
    (bl T U : ℕ) :
    ∀ t u, t < T → u ≤ U →
      cu_kernel_backward_beta lp lab bl T U t u =
        betaDP lp lab bl T U t u := by
  have main : ∀ n, n ≤ U + 1 → ∀ be : ℕ → ℕ → ℝ,
      (∀ s v, n ≤ v → v ≤ U → s < T → be s v = betaDP lp lab bl T U s v) →
      (∀ s v, s < T → v ≤ U → v < n →
        (List.range n).reverse.foldl
          (fun be u => runBetaWorker lp lab bl T U u be) be s v =
          betaDP lp lab bl T U s v) ∧
      (∀ s v, n ≤ v →
        (List.range n).reverse.foldl
          (fun be u => runBetaWorker lp lab bl T U u be) be s v = be s v) := by
    intro n
    induction n with
    | zero =>
        intro _ be _
        exact ⟨fun s v _ _ hv => absurd hv (by omega), fun _ _ _ => rfl⟩
    | succ m ih =>
        intro hm be pre
        rw [range_succ_reverse, List.foldl_cons]
        have hworker : (∀ s, s < T →
            runBetaWorker lp lab bl T U m be s m = betaDP lp lab bl T U s m) ∧
            (∀ s v, v ≠ m →
              runBetaWorker lp lab bl T U m be s v = be s v) :=
          runBetaWorker_partial lp lab bl T U m (by omega) T le_rfl be
            (fun s v h1 h2 h3 => pre s v (by omega) h2 h3)
            (fun s h1 h2 => absurd h1 (by omega))
        have pre2 : ∀ s v, m ≤ v → v ≤ U → s < T →
            runBetaWorker lp lab bl T U m be s v = betaDP lp lab bl T U s v := by
          intro s v h1 h2 h3
          by_cases hvm : v = m
          · subst hvm; exact hworker.1 s h3
          · rw [hworker.2 s v hvm]
            exact pre s v (by omega) h2 h3
        have h := ih (by omega) (runBetaWorker lp lab bl T U m be) pre2
        constructor
        · intro s v hs hv hvn
          by_cases hvm : v < m
          · exact h.1 s v hs hv hvm
          · have hveq : v = m := by omega
            subst hveq
            rw [h.2 s v le_rfl]
            exact pre2 s v le_rfl hv hs
        · intro s v hv
          rw [h.2 s v (by omega), hworker.2 s v (by omega)]
  intro t u ht hu
  exact (main (U + 1) le_rfl (fun _ _ => 0)
    (fun s v h1 h2 _ => absurd h2 (by omega))).1 t u ht hu (by omega)

/-- A loop of stores at `(t, u, tgt u)` for `u = 0 .. n-1` with values
independent of the lattice being written: closed form.  The cells are
pairwise distinct because the `u` coordinate differs. -/
theorem foldl_upd3_eq (tt : ℕ) (tgt : ℕ → ℕ) (v : ℕ → ℝ) :
    ∀ (n : ℕ) (g : ℕ → ℕ → ℕ → ℝ) (x y z : ℕ),
      ((List.range n).foldl (fun g u => upd3 g tt u (tgt u) (v u)) g) x y z =
        if x = tt ∧ y < n ∧ z = tgt y then v y else g x y z := by
  intro n
  induction n with
  | zero =>
      intro g x y z
      simp
  | succ n ihn =>
      intro g x y z
      rw [List.range_succ, List.foldl_append, List.foldl_cons, List.foldl_nil]
      show upd3 _ tt n (tgt n) (v n) x y z = _
      rw [upd3]
      by_cases h1 : x = tt ∧ y = n ∧ z = tgt n
      · obtain ⟨hx, hy, hz⟩ := h1
        subst hy
        rw [if_pos ⟨hx, rfl, hz⟩, if_pos ⟨hx, by omega, hz⟩]
      · rw [if_neg h1, ihn]
        by_cases h2 : x = tt ∧ y < n ∧ z = tgt y
        · rw [if_pos h2, if_pos ⟨h2.1, by omega, h2.2.2⟩]
        · rw [if_neg h2, if_neg ?_]
          intro hc
          obtain ⟨hx, hy, hz⟩ := hc
          by_cases hyn : y < n
          · exact h2 ⟨hx, hyn, hz⟩
          · have hyn' : y = n := by omega
            subst hyn'
            exact h1 ⟨hx, rfl, hz⟩

/-- Closed form of one worker's effect on the lattice. -/
theorem gradWorker_eq (lp : ℕ → ℕ → ℕ → ℝ) (lab : ℕ → ℕ)
    (al be : ℕ → ℕ → ℝ) (bl T U : ℕ) (t : ℕ) (g : ℕ → ℕ → ℕ → ℝ)
    (x y z : ℕ) :
    gradWorker lp lab al be bl T U t g x y z =
      if x = t ∧ y < U ∧ z = lab y then
        -Real.exp (al t y + be t (y + 1) + lp t y (lab y) - be 0 0)
      else if t < T - 1 ∧ x = t ∧ y < U + 1 ∧ z = bl then
        -Real.exp (al t y + be (t + 1) y + lp t y bl - be 0 0)
      else if t = 0 ∧ x = T - 1 ∧ y = U ∧ z = bl then
        -Real.exp (al (T - 1) U + lp (T - 1) U bl - be 0 0)
      else g x y z := by
  have hg1 : ∀ g' : ℕ → ℕ → ℕ → ℝ,
      (if t = 0 then
        upd3 g' (T - 1) U bl
          (-Real.exp (al (T - 1) U + lp (T - 1) U bl - be 0 0))
      else g') x y z =
      if t = 0 ∧ x = T - 1 ∧ y = U ∧ z = bl then
        -Real.exp (al (T - 1) U + lp (T - 1) U bl - be 0 0)
      else g' x y z := by
    intro g'
    by_cases ht : t = 0
    · rw [if_pos ht, upd3]
      by_cases hc : x = T - 1 ∧ y = U ∧ z = bl
      · rw [if_pos hc, if_pos ⟨ht, hc⟩]
      · rw [if_neg hc, if_neg (by tauto)]
    · rw [if_neg ht, if_neg (by tauto)]
  rw [gradWorker, gradEmitLoop, foldl_upd3_eq]
  by_cases hemit : x = t ∧ y < U ∧ z = lab y
  · rw [if_pos hemit, if_pos hemit]
  · rw [if_neg hemit, if_neg hemit]
    by_cases hbl : t < T - 1
    · rw [if_pos hbl, gradBlankLoop, foldl_upd3_eq]
      by_cases hc : x = t ∧ y < U + 1 ∧ z = bl
      · rw [if_pos hc, if_pos ⟨hbl, hc⟩]
      · rw [if_neg hc, hg1,
          if_neg (show ¬(t < T - 1 ∧ x = t ∧ y < U + 1 ∧ z = bl) from
            fun hcc => hc ⟨hcc.2.1, hcc.2.2.1, hcc.2.2.2⟩)]
    · rw [if_neg hbl, hg1,
        if_neg (show ¬(t < T - 1 ∧ x = t ∧ y < U + 1 ∧ z = bl) from
          fun hcc => hbl hcc.1)]

set_option maxHeartbeats 1600000 in
/-- Closed form of the whole gradient sweep (one batch element), with
`alpha`, `beta` arbitrary input tables and `loglik = beta[0,0]`:
an emit-gradient cell wins wherever it coincides with a blank-gradient
cell (the emit loop runs after the blank loop in the same worker), the
terminal cell is written by worker `0`, and all other cells stay
zero. -/
theorem cu_kernel_compute_grad_eq (lp : ℕ → ℕ → ℕ → ℝ) (lab : ℕ → ℕ)
    (al be : ℕ → ℕ → ℝ) (bl T U : ℕ) (x y z : ℕ) :
    cu_kernel_compute_grad lp lab al be bl T U x y z =
      if x < T ∧ y < U ∧ z = lab y then
        -Real.exp (al x y + be x (y + 1) + lp x y (lab y) - be 0 0)
      else if x < T - 1 ∧ y < U + 1 ∧ z = bl then
        -Real.exp (al x y + be (x + 1) y + lp x y bl - be 0 0)
      else if 0 < T ∧ x = T - 1 ∧ y = U ∧ z = bl then
        -Real.exp (al (T - 1) U + lp (T - 1) U bl - be 0 0)
      else 0 := by
  have main : ∀ n, n ≤ T → ∀ x y z : ℕ,
      ((List.range n).foldl (fun g t => gradWorker lp lab al be bl T U t g)
        (fun _ _ _ => 0)) x y z =
      if x < n ∧ y < U ∧ z = lab y then
        -Real.exp (al x y + be x (y + 1) + lp x y (lab y) - be 0 0)
      else if x < n ∧ x < T - 1 ∧ y < U + 1 ∧ z = bl then
        -Real.exp (al x y + be (x + 1) y + lp x y bl - be 0 0)
      else if 0 < n ∧ x = T - 1 ∧ y = U ∧ z = bl then
        -Real.exp (al (T - 1) U + lp (T - 1) U bl - be 0 0)
      else 0 := by
    intro n
    induction n with
    | zero =>
        intro _ x y z
        simp
    | succ n ihn =>
        intro hn x y z
        rw [List.range_succ, List.foldl_append, List.foldl_cons, List.foldl_nil]
        rw [gradWorker_eq, ihn (by omega)]
        by_cases hxn : x = n
        · subst hxn
          split_ifs <;> first | rfl | omega
        · split_ifs <;> first | rfl | omega
  rw [cu_kernel_compute_grad, main T le_rfl x y z]
  split_ifs <;> first | rfl | omega

theorem cu_kernel_forward_log_p_eq (lp : ℕ → ℕ → ℕ → ℝ) (lab : ℕ → ℕ)
    (bl T U : ℕ) (hT : 0 < T) :
    cu_kernel_forward_log_p lp lab bl T U =
      alphaDP lp lab bl (T - 1) U + lp (T - 1) U bl := by
  rw [cu_kernel_forward_log_p,
    cu_kernel_forward_alpha_eq lp lab bl T U (T - 1) U (by omega) le_rfl]

theorem cu_kernel_backward_log_p_eq (lp : ℕ → ℕ → ℕ → ℝ) (lab : ℕ → ℕ)
    (bl T U : ℕ) (hT : 0 < T) :
    cu_kernel_backward_log_p lp lab bl T U = betaDP lp lab bl T U 0 0 := by
  rw [cu_kernel_backward_log_p,
    cu_kernel_backward_beta_eq lp lab bl T U 0 0 (by omega) (by omega)]

/-- The two kernels' log-likelihood outputs agree exactly over the
reals. -/
theorem log_p_forward_eq_backward (lp : ℕ → ℕ → ℕ → ℝ) (lab : ℕ → ℕ)
    (bl T U : ℕ) (hT : 0 < T) :
    cu_kernel_forward_log_p lp lab bl T U =
      cu_kernel_backward_log_p lp lab bl T U := by
  rw [cu_kernel_forward_log_p_eq lp lab bl T U hT,
    cu_kernel_backward_log_p_eq lp lab bl T U hT,
    loglikDP_eq lp lab bl T U hT]

/-- C2: for every valid batch element `b` (`0 < T[b]`), the forward
sweep's log-likelihood `log_p_alpha[b] = alpha[T[b]-1, U[b]] +
log_probs[b, T[b]-1, U[b], blank]` equals the backward sweep's
log-likelihood `log_p_beta[b] = beta[b, 0, 0]` exactly, over exact real
arithmetic (the floating-point `1e-3` tolerance of the spec is the
finite-precision shadow of this exact identity). -/
theorem C2_forward_backward_loglik_agree (lp : ℕ → ℕ → ℕ → ℕ → ℝ)
    (lab : ℕ → ℕ → ℕ) (T U : ℕ → ℕ) (bl : ℕ) (b : ℕ) (hT : 0 < T b) :
    cu_kernel_forward_log_p (lp b) (lab b) bl (T b) (U b) =
      cu_kernel_backward_log_p (lp b) (lab b) bl (T b) (U b) :=
  log_p_forward_eq_backward (lp b) (lab b) bl (T b) (U b) hT

theorem C2_forward_backward_loglik_agree_witness :
    0 < 1 ∧
      cu_kernel_forward_log_p (fun _ _ _ => 0) (fun _ => 0) 0 1 0 =
        cu_kernel_backward_log_p (fun _ _ _ => 0) (fun _ => 0) 0 1 0 :=
  ⟨by decide,
    C2_forward_backward_loglik_agree (fun _ => fun _ _ _ => 0)
      (fun _ => fun _ => 0) (fun _ => 1) (fun _ => 0) 0 0 (by decide)⟩

/-- C3: forward-sweep postcondition for every valid batch element `b`:
`alpha[0,0] = 0`; only-blank time-axis boundary; only-emit label-axis
boundary; interior cells are the stable log-sum-exp
`max(no_emit, emit) + log1p(exp(-|no_emit - emit|))` of the no-emit and
emit predecessors; and the forward log-likelihood equals
`alpha[T[b]-1, U[b]] + log_probs[T[b]-1, U[b], blank]`. -/
theorem C3_forward_sweep_postcondition (lp : ℕ → ℕ → ℕ → ℕ → ℝ)
    (lab : ℕ → ℕ → ℕ) (T U : ℕ → ℕ) (bl : ℕ) (b : ℕ) (hT : 0 < T b) :
    cu_kernel_forward_alpha (lp b) (lab b) bl (T b) (U b) 0 0 = 0 ∧
    (∀ t, 0 < t → t < T b →
      cu_kernel_forward_alpha (lp b) (lab b) bl (T b) (U b) t 0 =
        cu_kernel_forward_alpha (lp b) (lab b) bl (T b) (U b) (t - 1) 0 +
          lp b (t - 1) 0 bl) ∧
    (∀ u, 0 < u → u ≤ U b →
      cu_kernel_forward_alpha (lp b) (lab b) bl (T b) (U b) 0 u =
        cu_kernel_forward_alpha (lp b) (lab b) bl (T b) (U b) 0 (u - 1) +
          lp b 0 (u - 1) (lab b (u - 1))) ∧
    (∀ t u, 0 < t → t < T b → 0 < u → u ≤ U b →
      cu_kernel_forward_alpha (lp b) (lab b) bl (T b) (U b) t u =
        max (cu_kernel_forward_alpha (lp b) (lab b) bl (T b) (U b) (t - 1) u +
              lp b (t - 1) u bl)
            (cu_kernel_forward_alpha (lp b) (lab b) bl (T b) (U b) t (u - 1) +
              lp b t (u - 1) (lab b (u - 1))) +
          Real.log (1 + Real.exp
            (-|(cu_kernel_forward_alpha (lp b) (lab b) bl (T b) (U b) (t - 1) u +
                  lp b (t - 1) u bl) -
                (cu_kernel_forward_alpha (lp b) (lab b) bl (T b) (U b) t (u - 1) +
                  lp b t (u - 1) (lab b (u - 1)))|))) ∧
    cu_kernel_forward_log_p (lp b) (lab b) bl (T b) (U b) =
      cu_kernel_forward_alpha (lp b) (lab b) bl (T b) (U b) (T b - 1) (U b) +
        lp b (T b - 1) (U b) bl := by
  have ha := cu_kernel_forward_alpha_eq (lp b) (lab b) bl (T b) (U b)
  refine ⟨?_, ?_, ?_, ?_, rfl⟩
  · rw [ha 0 0 hT (by omega)]
    simp [alphaDP]
  · intro t h1 h2
    rw [ha t 0 h2 (by omega), ha (t - 1) 0 (by omega) (by omega)]
    match t, h1 with
    | t' + 1, _ => simp [alphaDP]
  · intro u h1 h2
    rw [ha 0 u hT h2, ha 0 (u - 1) hT (by omega)]
    match u, h1 with
    | u' + 1, _ => simp [alphaDP]
  · intro t u h1 h2 h3 h4
    rw [ha t u h2 h4, ha (t - 1) u (by omega) h4, ha t (u - 1) h2 (by omega)]
    match t, u, h1, h3 with
    | t' + 1, u' + 1, _, _ =>
        show alphaDP (lp b) (lab b) bl (t' + 1) (u' + 1) = _
        have he : alphaDP (lp b) (lab b) bl (t' + 1) (u' + 1) =
            lse (alphaDP (lp b) (lab b) bl t' (u' + 1) + lp b t' (u' + 1) bl)
              (alphaDP (lp b) (lab b) bl (t' + 1) u' +
                lp b (t' + 1) u' (lab b u')) := by
          simp [alphaDP]
        rw [he, lse]
        simp

theorem C3_forward_sweep_postcondition_witness :
    0 < 1 ∧
      cu_kernel_forward_alpha (fun _ _ _ => 0) (fun _ => 0) 0 1 0 0 0 = 0 :=
  ⟨by decide,
    (C3_forward_sweep_postcondition (fun _ => fun _ _ _ => 0)
      (fun _ => fun _ => 0) (fun _ => 1) (fun _ => 0) 0 0 (by decide)).1⟩

theorem Transducer.forward_none (lp : ℕ → ℕ → ℕ → ℕ → ℝ) (lab : ℕ → ℕ → ℕ)
    (T U : ℕ → ℕ) (B : ℕ) (bl : ℕ) :
    Transducer.forward lp lab T U B bl "none" =
      Except.ok (Sum.inr (lossVector lp lab T U bl)) := by
  rw [Transducer.forward, if_neg (by decide), if_neg (by decide), if_pos rfl]

theorem Transducer.forward_sum (lp : ℕ → ℕ → ℕ → ℕ → ℝ) (lab : ℕ → ℕ → ℕ)
    (T U : ℕ → ℕ) (B : ℕ) (bl : ℕ) :
    Transducer.forward lp lab T U B bl "sum" =
      Except.ok (Sum.inl
        (Finset.sum (Finset.range B) (lossVector lp lab T U bl))) := by
  rw [Transducer.forward, if_neg (by decide), if_pos rfl]

theorem Transducer.forward_mean (lp : ℕ → ℕ → ℕ → ℕ → ℝ) (lab : ℕ → ℕ → ℕ)
    (T U : ℕ → ℕ) (B : ℕ) (bl : ℕ) :
    Transducer.forward lp lab T U B bl "mean" =
      Except.ok (Sum.inl
        (Finset.sum (Finset.range B) (lossVector lp lab T U bl) / (B : ℝ))) := by
  rw [Transducer.forward, if_pos rfl]

/-- C5: the per-batch loss vector returned under `reduction = "none"`
is, at every valid batch element, the negated average of the two
independently computed log-likelihoods:
`-(log_p_alpha[b] + log_p_beta[b]) / 2`. -/
theorem C5_loss_is_negated_average (lp : ℕ → ℕ → ℕ → ℕ → ℝ)
    (lab : ℕ → ℕ → ℕ) (T U : ℕ → ℕ) (B : ℕ) (bl : ℕ) (v : ℕ → ℝ)
    (h : Transducer.forward lp lab T U B bl "none" = Except.ok (Sum.inr v)) :
    ∀ b, v b =
      -(cu_kernel_forward_log_p (lp b) (lab b) bl (T b) (U b) +
          cu_kernel_backward_log_p (lp b) (lab b) bl (T b) (U b)) / 2 := by
  rw [Transducer.forward_none] at h
  have hv : lossVector lp lab T U bl = v := by
    injection h with h1
    injection h1
  intro b
  rw [← hv]
  rfl

theorem C5_loss_is_negated_average_witness :
    Transducer.forward (fun _ _ _ _ => 0) (fun _ _ => 0) (fun _ => 1)
        (fun _ => 0) 1 0 "none" =
      Except.ok (Sum.inr (lossVector (fun _ _ _ _ => 0) (fun _ _ => 0)
        (fun _ => 1) (fun _ => 0) 0)) ∧
    lossVector (fun _ _ _ _ => 0) (fun _ _ => 0) (fun _ => 1) (fun _ => 0) 0 0 =
      -(cu_kernel_forward_log_p (fun _ _ _ => 0) (fun _ => 0) 0 1 0 +
          cu_kernel_backward_log_p (fun _ _ _ => 0) (fun _ => 0) 0 1 0) / 2 :=
  ⟨Transducer.forward_none _ _ _ _ _ _,
    C5_loss_is_negated_average (fun _ _ _ _ => 0) (fun _ _ => 0) (fun _ => 1)
      (fun _ => 0) 1 0 _ (Transducer.forward_none _ _ _ _ _ _) 0⟩

/-- C6: reduction laws — on any input, `reduction = "sum"` returns the
sum of the vector `reduction = "none"` returns, and
`reduction = "mean"` returns that sum divided by the batch size `B`. -/
theorem C6_reduction_laws (lp : ℕ → ℕ → ℕ → ℕ → ℝ) (lab : ℕ → ℕ → ℕ)
    (T U : ℕ → ℕ) (B : ℕ) (bl : ℕ) (v : ℕ → ℝ)
    (h : Transducer.forward lp lab T U B bl "none" = Except.ok (Sum.inr v)) :
    Transducer.forward lp lab T U B bl "sum" =
      Except.ok (Sum.inl (Finset.sum (Finset.range B) v)) ∧
    Transducer.forward lp lab T U B bl "mean" =
      Except.ok (Sum.inl (Finset.sum (Finset.range B) v / (B : ℝ))) := by
  rw [Transducer.forward_none] at h
  have hv : lossVector lp lab T U bl = v := by
    injection h with h1
    injection h1
  rw [← hv]
  exact ⟨Transducer.forward_sum lp lab T U B bl,
    Transducer.forward_mean lp lab T U B bl⟩

theorem C6_reduction_laws_witness :
    Transducer.forward (fun _ _ _ _ => 0) (fun _ _ => 0) (fun _ => 1)
        (fun _ => 0) 1 0 "none" =
      Except.ok (Sum.inr (lossVector (fun _ _ _ _ => 0) (fun _ _ => 0)
        (fun _ => 1) (fun _ => 0) 0)) ∧
    Transducer.forward (fun _ _ _ _ => 0) (fun _ _ => 0) (fun _ => 1)
        (fun _ => 0) 1 0 "sum" =
      Except.ok (Sum.inl (Finset.sum (Finset.range 1)
        (lossVector (fun _ _ _ _ => 0) (fun _ _ => 0) (fun _ => 1)
          (fun _ => 0) 0))) :=
  ⟨Transducer.forward_none _ _ _ _ _ _,
    (C6_reduction_laws (fun _ _ _ _ => 0) (fun _ _ => 0) (fun _ => 1)
      (fun _ => 0) 1 0 _ (Transducer.forward_none _ _ _ _ _ _)).1⟩

/-- C7: an unrecognized reduction string makes the invocation raise
(`raise Exception("Unexpected reduction ...")` — the spec's
ConfigurationError) rather than silently falling back to any policy,
and each of the three enumerated values returns without raising. -/
theorem C7_unknown_reduction_raises (lp : ℕ → ℕ → ℕ → ℕ → ℝ)
    (lab : ℕ → ℕ → ℕ) (T U : ℕ → ℕ) (B : ℕ) (bl : ℕ) (red : String) :
    (red ≠ "mean" → red ≠ "sum" → red ≠ "none" →
      Transducer.forward lp lab T U B bl red =
        Except.error ("Unexpected reduction " ++ red)) ∧
    (red = "mean" ∨ red = "sum" ∨ red = "none" →
      exceptIsError (Transducer.forward lp lab T U B bl red) = false) := by
  constructor
  · intro h1 h2 h3
    rw [Transducer.forward, if_neg h1, if_neg h2, if_neg h3]
  · intro h
    rcases h with h | h | h <;> subst h
    · rw [Transducer.forward_mean]
      rfl
    · rw [Transducer.forward_sum]
      rfl
    · rw [Transducer.forward_none]
      rfl

theorem C7_unknown_reduction_raises_witness :
    ("max" ≠ "mean" ∧ "max" ≠ "sum" ∧ "max" ≠ "none") ∧
      Transducer.forward (fun _ _ _ _ => 0) (fun _ _ => 0) (fun _ => 1)
          (fun _ => 0) 1 0 "max" =
        Except.error ("Unexpected reduction " ++ "max") :=
  ⟨by decide,
    (C7_unknown_reduction_raises (fun _ _ _ _ => 0) (fun _ _ => 0)
      (fun _ => 1) (fun _ => 0) 1 0 "max").1 (by decide) (by decide)
      (by decide)⟩

/-- C8 counterexample: an invocation violating the stated preconditions
— lattice shape `T_max = 2`, `U_max = 3`, `A = 5` with `blank_id = 5`
(outside `[0, A)`) and `U[b] = 7` (outside `[0, U_max - 1]`) — is not
rejected: the sweeps run and a loss is returned, so no validation
happens before launch. -/
theorem C8_counterexample :
    exceptIsError (Transducer.forward (fun _ _ _ _ => 0) (fun _ u => u + 1)
      (fun _ => 2) (fun _ => 7) 1 5 "none") = false := by
  rw [Transducer.forward_none]
  rfl

/-- C8 amended: `Transducer.forward` performs no precondition
validation at all — `blank_id` and the length vectors are handed to
the kernels unchecked for every input, and the only condition under
which the invocation raises is an unrecognized reduction string (a
check that happens only after the sweeps have already run). -/
theorem C8_no_precondition_validation (lp : ℕ → ℕ → ℕ → ℕ → ℝ)
    (lab : ℕ → ℕ → ℕ) (T U : ℕ → ℕ) (B : ℕ) (bl : ℕ) (red : String) :
    exceptIsError (Transducer.forward lp lab T U B bl red) = true ↔
      (red ≠ "mean" ∧ red ≠ "sum" ∧ red ≠ "none") := by
  constructor
  · intro h
    by_cases h1 : red = "mean"
    · subst h1
      rw [Transducer.forward_mean] at h
      exact absurd h (by simp [exceptIsError])
    · by_cases h2 : red = "sum"
      · subst h2
        rw [Transducer.forward_sum] at h
        exact absurd h (by simp [exceptIsError])
      · by_cases h3 : red = "none"
        · subst h3
          rw [Transducer.forward_none] at h
          exact absurd h (by simp [exceptIsError])
        · exact ⟨h1, h2, h3⟩
  · intro ⟨h1, h2, h3⟩
    rw [Transducer.forward, if_neg h1, if_neg h2, if_neg h3]
    rfl

/-- C9: under the spec's length invariant there are inputs on which the
kernels' doorbell operations index the `B × U_max` lock array out of
bounds.  With `U_max = 1` and `U[b] = 0` (a legal empty-target
element), the backward boundary worker `u = U[b]` decrements
`lock[b, U[b] - 1] = lock[b, -1]`, and the forward worker `u = 0`
decrements `lock[b, 1]` — both outside `[0, U_max)`, so a
bounds-checked access takes the error branch. -/
theorem C9_lock_out_of_bounds :
    lengthInvariant 1 1 1 0 ∧
      lockAccess 1 (backwardBoundarySignal 0) = none ∧
      lockAccess 1 forwardWorkerZeroSignal = none := by
  refine ⟨⟨by decide, by decide, by decide⟩, by decide, by decide⟩

/-- C10: `Transducer.backward` scales the stored gradient lattice in
place and returns the same buffer: the state left in `ctx.grads`
coincides with the returned tensor, a second invocation with upstream
gradient `g2` yields the lattice scaled by `g1 * g2` per batch element,
and (at the concrete instance `grads ≡ 1`, `g1 ≡ 2`, `g2 ≡ 3`) that is
not the lattice scaled by `g2` alone — `backward` is not repeatable on
the same `ctx`. -/
theorem C10_backward_mutates_ctx (grads : ℕ → ℕ → ℕ → ℕ → ℝ)
    (g1 g2 : ℕ → ℝ) :
    (Transducer.backward grads g1).1 = (Transducer.backward grads g1).2 ∧
    (∀ b t u a,
      (Transducer.backward (Transducer.backward grads g1).1 g2).2 b t u a =
        grads b t u a * (g1 b * g2 b)) ∧
    (Transducer.backward
        (Transducer.backward (fun _ _ _ _ => 1) (fun _ => 2)).1
        (fun _ => 3)).2 0 0 0 0 ≠
      (fun _ _ _ _ => (1 : ℝ)) 0 0 0 0 * 3 := by
  refine ⟨rfl, fun b t u a => by rw [Transducer.backward, Transducer.backward]; ring, ?_⟩
  show ((1 : ℝ) * 2) * 3 ≠ 1 * 3
  norm_num

/-- C4 counterexample: the claim's blank-transition clause
(`grads[t,u,blank] = -exp(alpha[t,u] + beta[t+1,u] + log_probs[t,u,blank]
- loglik)` for every `t < T[b]-1`, `u` in `0..U[b]`) is false as
universally stated: when `labels[u] = blank` the emit loop overwrites
that cell.  Instantiated at `T = 2`, `U = 1`, `labels[0] = blank = 0`,
zero log-probs, zero alpha, and `beta[1,0] = 1` (all other beta cells
zero), cell `(0,0,blank)` holds the emit value `-exp 0` while the
clause demands `-exp 1`. -/
theorem C4_counterexample :
    ¬(∀ (lp : ℕ → ℕ → ℕ → ℝ) (lab : ℕ → ℕ) (al be : ℕ → ℕ → ℝ)
        (bl T U : ℕ), 0 < T →
        ∀ t u, t < T - 1 → u ≤ U →
          cu_kernel_compute_grad lp lab al be bl T U t u bl =
            -Real.exp (al t u + be (t + 1) u + lp t u bl - be 0 0)) := by
  intro h
  have h2 := h (fun _ _ _ => 0) (fun _ => 0) (fun _ _ => 0)
    (fun t u => if t = 1 ∧ u = 0 then 1 else 0) 0 2 1 (by decide)
    0 0 (by decide) (by decide)
  rw [cu_kernel_compute_grad_eq] at h2
  norm_num at h2
  have hgt := Real.add_one_lt_exp (show (1 : ℝ) ≠ 0 by norm_num)
  rw [← h2] at hgt
  norm_num at hgt

/-- C4 amended: gradient-sweep postcondition for every valid batch
element (`0 < T`), over whatever `alpha`/`beta` tables the previous
sweeps supplied, with `loglik = beta[0,0]`:
the terminal cell holds
`grads[T-1, U, blank] = -exp(alpha[T-1,U] + log_probs[T-1,U,blank] - loglik)`;
`grads[t,u,blank] = -exp(alpha[t,u] + beta[t+1,u] + log_probs[t,u,blank] - loglik)`
for `t < T-1` and `u` in `0..U` — except at cells `(t,u,blank)` with
`u < U` and `labels[u] = blank`, which instead hold the emit value (the
emit loop runs after the blank loop);
`grads[t,u,labels[u]] = -exp(alpha[t,u] + beta[t,u+1] + log_probs[t,u,labels[u]] - loglik)`
for `t < T` and `u < U`; and every other lattice cell is zero. -/
theorem C4_gradient_lattice_amended (lp : ℕ → ℕ → ℕ → ℝ) (lab : ℕ → ℕ)
    (al be : ℕ → ℕ → ℝ) (bl T U : ℕ) (hT : 0 < T) :
    cu_kernel_compute_grad lp lab al be bl T U (T - 1) U bl =
      -Real.exp (al (T - 1) U + lp (T - 1) U bl - be 0 0) ∧
    (∀ t u, t < T - 1 → u ≤ U → (u < U → lab u ≠ bl) →
      cu_kernel_compute_grad lp lab al be bl T U t u bl =
        -Real.exp (al t u + be (t + 1) u + lp t u bl - be 0 0)) ∧
    (∀ t u, t < T → u < U →
      cu_kernel_compute_grad lp lab al be bl T U t u (lab u) =
        -Real.exp (al t u + be t (u + 1) + lp t u (lab u) - be 0 0)) ∧
    (∀ t u a, ¬(t < T ∧ u < U ∧ a = lab u) →
      ¬(t < T - 1 ∧ u ≤ U ∧ a = bl) → ¬(t = T - 1 ∧ u = U ∧ a = bl) →
      cu_kernel_compute_grad lp lab al be bl T U t u a = 0) := by
  refine ⟨?_, ?_, ?_, ?_⟩
  · rw [cu_kernel_compute_grad_eq,
      if_neg (show ¬(T - 1 < T ∧ U < U ∧ bl = lab U) by omega),
      if_neg (show ¬(T - 1 < T - 1 ∧ U < U + 1 ∧ bl = bl) by omega),
      if_pos ⟨hT, rfl, rfl, rfl⟩]
  · intro t u h1 h2 h3
    rw [cu_kernel_compute_grad_eq,
      if_neg (fun hA => (h3 hA.2.1) hA.2.2.symm),
      if_pos ⟨h1, by omega, rfl⟩]
  · intro t u h1 h2
    rw [cu_kernel_compute_grad_eq, if_pos ⟨h1, h2, rfl⟩]
  · intro t u a hA hB hC
    rw [cu_kernel_compute_grad_eq, if_neg hA,
      if_neg (fun hc => hB ⟨hc.1, by omega, hc.2.2⟩),
      if_neg (fun hc => hC hc.2)]

theorem C4_gradient_lattice_amended_witness :
    0 < 1 ∧
      cu_kernel_compute_grad (fun _ _ _ => 0) (fun _ => 1) (fun _ _ => 0)
          (fun _ _ => 0) 0 1 0 (1 - 1) 0 0 =
        -Real.exp ((fun _ _ => (0 : ℝ)) (1 - 1) 0 +
          (fun _ _ _ => (0 : ℝ)) (1 - 1) 0 0 - (fun _ _ => (0 : ℝ)) 0 0) :=
  ⟨by decide,
    (C4_gradient_lattice_amended (fun _ _ _ => 0) (fun _ => 1) (fun _ _ => 0)
      (fun _ _ => 0) 0 1 0 (by decide)).1⟩

/-- C1 counterexample: in the concrete scenario (`T = 2`, `U = 2`,
`labels = [1,2]`) the number of valid monotonic alignments — paths
from `(0,0)` to `(T-1, U) = (1, 2)`, each followed by the terminal
blank — is three, not two as the claim asserts. -/
theorem C1_counterexample : ¬((alignPaths (2 - 1) 2).length = 2) := by
  decide

/-- C1 amended: for the concrete scenario (batch of 1, `T_max = 2`,
`U_max = 3`, `A = 5`, `labels = [[1,2]]`, `input_length = [2]`,
`label_length = [2]`, `blank_id = 0`), the loss computed by
`Transducer.forward` equals the brute-force reference: the negative of
the log-sum-exp over the path log-probabilities of the **three** valid
monotonic alignments. -/
theorem C1_scenario_loss_amended (lp : ℕ → ℕ → ℕ → ℝ) :
    Transducer.forward (fun _ => lp) (fun _ => scenarioLabels) (fun _ => 2)
        (fun _ => 2) 1 0 "mean" =
      Except.ok (Sum.inl (-Real.log
        (((alignPaths (2 - 1) 2).map
          (fun path => Real.exp (pathScore lp scenarioLabels 0 0 0 path))).sum))) := by
  have hT : (0 : ℕ) < 2 := by decide
  rw [Transducer.forward_mean]
  have hmean : Finset.sum (Finset.range 1)
      (lossVector (fun _ => lp) (fun _ => scenarioLabels) (fun _ => 2)
        (fun _ => 2) 0) / ((1 : ℕ) : ℝ) =
      lossVector (fun _ => lp) (fun _ => scenarioLabels) (fun _ => 2)
        (fun _ => 2) 0 0 := by
    rw [Finset.sum_range_one]
    norm_num
  rw [hmean]
  have hL := log_p_forward_eq_backward lp scenarioLabels 0 2 2 hT
  have hloss : lossVector (fun _ => lp) (fun _ => scenarioLabels)
      (fun _ => 2) (fun _ => 2) 0 0 =
      -(cu_kernel_forward_log_p lp scenarioLabels 0 2 2) := by
    show -(cu_kernel_forward_log_p lp scenarioLabels 0 2 2 +
        cu_kernel_backward_log_p lp scenarioLabels 0 2 2) / 2 = _
    rw [← hL]
    ring
  rw [hloss]
  have hE : Real.exp (cu_kernel_forward_log_p lp scenarioLabels 0 2 2) =
      ((alignPaths (2 - 1) 2).map
        (fun path => Real.exp (pathScore lp scenarioLabels 0 0 0 path))).sum := by
    rw [cu_kernel_forward_log_p_eq lp scenarioLabels 0 2 2 hT,
      Real.exp_add, exp_alphaDP]
    have hlist : alignPaths (2 - 1) 2 =
        [[false, true, true], [true, false, true], [true, true, false]] := by
      decide
    rw [hlist]
    simp [Ffwd, pathScore, scenarioLabels, Real.exp_add]
    ring
  have hlog : cu_kernel_forward_log_p lp scenarioLabels 0 2 2 =
      Real.log (((alignPaths (2 - 1) 2).map
        (fun path => Real.exp (pathScore lp scenarioLabels 0 0 0 path))).sum) := by
    rw [← Real.log_exp (cu_kernel_forward_log_p lp scenarioLabels 0 2 2), hE]
  rw [hlog]
